import Mathlib

/-!
Verification of the CzechiBank analytics dashboard (`src/app/page.tsx`).

The dashboard is a single React component.  Its logic consists of pure
analytics transforms over an in-memory transaction list (balance curves,
monthly and type totals, top counterparties, summary statistics), a
comparator-based table sorter, and a data loader whose error handling
classifies failures and manages a persisted credential.

Shallow embedding conventions:
* JavaScript numbers carrying monetary amounts and timestamps are modelled
  as `Int`; `Math.abs` is `|·|`.
* `new Date(tx.createdAt)` is modelled by the record `JsDate`, carrying the
  epoch value `time` (`getTime()`) and the locale month/day parts used by
  `toLocaleString(.., \x7bmonth: 'numeric', day: 'numeric'\x7d)`.
* `Array.prototype.sort(cmp)` is stable in every modern engine (ES2019).
  A stable sort is uniquely determined by the total preorder
  `le a b := cmp a b ≤ 0`, so it is modelled by `List.insertionSort`,
  Mathlib's stable sort, applied to that relation.
* A JavaScript object used as a string-keyed dictionary is modelled as an
  association list in insertion order (`Object.values` enumerates
  non-integer-like string keys in insertion order).
* `localeCompare` is modelled as the three-valued comparison `strCmp`
  induced by the linear order on `String`.
-/

/-- The nested `{ name, id }` user reference appearing inside transaction
endpoints and bank accounts. -/
structure Party where
  name : String
  id : String
deriving DecidableEq

/-- The authenticated user profile (`interface User`). -/
structure User where
  id : String
  name : String
  email : String
deriving DecidableEq

/-- A transaction endpoint: account number plus owning user
(`\x7b number, user \x7d`). -/
structure Endpoint where
  number : String
  user : Party
deriving DecidableEq

/-- The result of `new Date(s)` on a transaction's ISO timestamp: the epoch
milliseconds (`getTime()`) together with the calendar month and day that the
locale formatter renders.  Month and day are carried explicitly because the
code never uses any further component of the date. -/
structure JsDate where
  time : Int
  month : Nat
  day : Nat
deriving DecidableEq

/-- Model of `interface Transaction`.  The `from` field is renamed `from_` (and `to` is `to_`) because
`from` is a Lean keyword. -/
structure Transaction where
  id : String
  amount : Int
  createdAt : JsDate
  currency : String
  from_ : Endpoint
  to_ : Endpoint
deriving DecidableEq

/-- Model of `interface BankAccount`. -/
structure BankAccount where
  id : String
  number : String
  balance : Int
  currency : String
  user : Party
deriving DecidableEq

/-- The bucket key `new Date(tx.createdAt).toLocaleString('cs-CZ', \x7bmonth: 'numeric',
day: 'numeric'\x7d)`: the cs-CZ numeric form is "D. M." and carries no year. -/
def txDate (tx : Transaction) : String :=
  toString tx.createdAt.day ++ ". " ++ toString tx.createdAt.month ++ "."

/-- The classification `tx.to.user.id === currentUser?.id`: with no current user the optional
chain yields `undefined` and the strict comparison is false. -/
def isIncomingTx (uid : Option String) (tx : Transaction) : Bool :=
  some tx.to_.user.id == uid

/-- The signed amount used by the chronological balance curve:
`isIncomingTransaction ? Math.abs(tx.amount) : -Math.abs(tx.amount)`. -/
def txSigned (uid : Option String) (tx : Transaction) : Int :=
  if isIncomingTx uid tx then |tx.amount| else -|tx.amount|

/-- One point of the `balanceData` series (`\x7b date, balance \x7d`). -/
structure BalancePoint where
  date : String
  balance : Int
deriving DecidableEq

/-- One step of the `balanceData` reduce.  `lastBalance` reads the balance of
the last accumulated bucket (`acc[acc.length - 1]`), the bucket for the
transaction's date is overwritten when it already exists
(`acc[existingDateIndex].balance = newBalance`), and otherwise a fresh bucket
is appended. -/
def balanceStep (uid : Option String) (acc : List BalancePoint) (tx : Transaction) :
    List BalancePoint :=
  let lastBalance : Int := match acc.getLast? with | some p => p.balance | none => 0
  let transactionAmount := txSigned uid tx
  let newBalance := lastBalance + transactionAmount
  let date := txDate tx
  match acc.findIdx? (fun p => p.date == date) with
  | some i =>
    match acc[i]? with
    | some p => acc.set i { p with balance := newBalance }
    | none => acc
  | none => acc ++ [{ date := date, balance := newBalance }]

/-- The comparator `(a, b) => new Date(a.createdAt).getTime() - new
Date(b.createdAt).getTime()` as the total preorder `cmp a b ≤ 0`. -/
def dateAscRel (a b : Transaction) : Prop :=
  a.createdAt.time - b.createdAt.time ≤ 0

instance : DecidableRel dateAscRel := fun a b => Int.decLe _ _

/-- The reversed comparator `(a, b) => new Date(b.createdAt).getTime() - new
Date(a.createdAt).getTime()` (newest first) as the relation `cmp a b ≤ 0`. -/
def dateDescRel (a b : Transaction) : Prop :=
  b.createdAt.time - a.createdAt.time ≤ 0

instance : DecidableRel dateDescRel := fun a b => Int.decLe _ _

instance : IsTotal Transaction dateAscRel :=
  ⟨by intro a b; unfold dateAscRel; omega⟩

instance : IsTrans Transaction dateAscRel :=
  ⟨by intro a b c; unfold dateAscRel; omega⟩

instance : IsTotal Transaction dateDescRel :=
  ⟨by intro a b; unfold dateDescRel; omega⟩

instance : IsTrans Transaction dateDescRel :=
  ⟨by intro a b c; unfold dateDescRel; omega⟩

/-- Model of `balanceData`: sort ascending by timestamp, then reduce with
`balanceStep` starting from the empty accumulator. -/
def balanceData (uid : Option String) (txs : List Transaction) : List BalancePoint :=
  (txs.insertionSort dateAscRel).foldl (balanceStep uid) []

/-- The call `transactions.sort(...)` inside `balanceData` is `Array.prototype.sort`,
which reorders the React state array *in place*; this is the state of the
`transactions` array after `balanceData` has been computed. -/
def transactionsAfterBalanceData (txs : List Transaction) : List Transaction :=
  txs.insertionSort dateAscRel

/-- One point of the `runningBalanceData` series
(`\x7b date, balance, incoming, outgoing \x7d`). -/
structure RunningPoint where
  date : String
  balance : Int
  incoming : Int
  outgoing : Int
deriving DecidableEq

/-- One step of the `runningBalanceData` reduce (walking newest-to-oldest):
the sign of each amount is reversed ("since we're going backwards"), the
seed is the first account's balance, same-date buckets accumulate the daily
incoming/outgoing split (outgoing stored negative) and have their balance
overwritten. -/
def runningStep (uid : Option String) (seed : Int) (acc : List RunningPoint)
    (tx : Transaction) : List RunningPoint :=
  let currentBalance : Int := match acc.getLast? with | some p => p.balance | none => seed
  let inc := isIncomingTx uid tx
  let transactionAmount : Int := if inc then -|tx.amount| else |tx.amount|
  let newBalance := currentBalance + transactionAmount
  let date := txDate tx
  match acc.findIdx? (fun p => p.date == date) with
  | some i =>
    match acc[i]? with
    | some p =>
      acc.set i
        (if inc then { p with incoming := p.incoming + |tx.amount|, balance := newBalance }
         else { p with outgoing := p.outgoing - |tx.amount|, balance := newBalance })
    | none => acc
  | none =>
    acc ++ [{ date := date, balance := newBalance,
              incoming := if inc then |tx.amount| else 0,
              outgoing := if inc then 0 else -|tx.amount| }]

/-- The expression `accounts[0]?.balance || 0`: the seed of the reverse running balance. -/
def accountSeed (accounts : List BankAccount) : Int :=
  ((accounts.head?).map (fun a => a.balance)).getD 0

/-- Model of `runningBalanceData`: sort newest first, reduce with `runningStep`, then
reverse back to chronological order for display. -/
def runningBalanceData (uid : Option String) (accounts : List BankAccount)
    (txs : List Transaction) : List RunningPoint :=
  ((txs.insertionSort dateDescRel).foldl (runningStep uid (accountSeed accounts)) []).reverse

/-- The `transactionTypes` accumulator (`\x7b Income: 0, Expense: 0 \x7d`). -/
structure TypeTotals where
  Income : Int
  Expense : Int
deriving DecidableEq

/-- Model of `transactionTypes`: total incoming and outgoing volume, classified by
receiver identity, on absolute amounts. -/
def transactionTypes (uid : Option String) (txs : List Transaction) : TypeTotals :=
  txs.foldl
    (fun acc tx =>
      if isIncomingTx uid tx then { acc with Income := acc.Income + |tx.amount| }
      else { acc with Expense := acc.Expense + |tx.amount| })
    { Income := 0, Expense := 0 }

/-- The `transactionStats` record. -/
structure TransactionStats where
  totalTransactions : Nat
  totalVolume : Int
  averageAmount : Int
  largestTransaction : Int
  smallestTransaction : Int
deriving DecidableEq

/-- Model of `transactions.reduce((sum, tx) => sum + Math.abs(tx.amount), 0)`. -/
def totalVolumeOf (txs : List Transaction) : Int :=
  txs.foldl (fun sum tx => sum + |tx.amount|) 0

/-- Model of `transactionStats`: count, volume, rounded average (guarded against an
empty list), and extreme absolute amounts (`Math.max/min` over the mapped
list, also guarded). -/
def transactionStats (txs : List Transaction) : TransactionStats :=
  { totalTransactions := txs.length
    totalVolume := totalVolumeOf txs
    averageAmount :=
      if 0 < txs.length then round ((totalVolumeOf txs : ℚ) / (txs.length : ℚ)) else 0
    largestTransaction :=
      if 0 < txs.length then ((txs.map (fun tx => |tx.amount|)).max?).getD 0 else 0
    smallestTransaction :=
      if 0 < txs.length then ((txs.map (fun tx => |tx.amount|)).min?).getD 0 else 0 }

/-- One entry of the `topPartners` accumulator object. -/
structure PartnerAcc where
  name : String
  incoming : Int
  outgoing : Int
deriving DecidableEq

/-- The expression `isIncoming ? tx.from.user.name : tx.to.user.name`: the display name of
the other party. -/
def partnerNameOf (uid : Option String) (tx : Transaction) : String :=
  if isIncomingTx uid tx then tx.from_.user.name else tx.to_.user.name

/-- One step of the `topPartners` reduce.  The accumulator object keyed by
partner name is modelled as an association list in insertion order; a fresh
key initialises a zero record which immediately receives the amount. -/
def topPartnersStep (uid : Option String) (acc : List PartnerAcc) (tx : Transaction) :
    List PartnerAcc :=
  let inc := isIncomingTx uid tx
  let partnerName := partnerNameOf uid tx
  let amount := |tx.amount|
  match acc.findIdx? (fun p => p.name == partnerName) with
  | some i =>
    match acc[i]? with
    | some p =>
      acc.set i
        (if inc then { p with incoming := p.incoming + amount }
         else { p with outgoing := p.outgoing + amount })
    | none => acc
  | none =>
    acc ++ [if inc then { name := partnerName, incoming := amount, outgoing := 0 }
            else { name := partnerName, incoming := 0, outgoing := amount }]

/-- The `topPartners` accumulator after the whole reduce. -/
def topPartners (uid : Option String) (txs : List Transaction) : List PartnerAcc :=
  txs.foldl (topPartnersStep uid) []

/-- One entry of `topPartnersData` (with the derived `total`). -/
structure PartnerData where
  name : String
  incoming : Int
  outgoing : Int
  total : Int
deriving DecidableEq

/-- The comparator `(a, b) => b.total - a.total` as the relation
`cmp a b ≤ 0` (descending by total). -/
def partnerTotalRel (a b : PartnerData) : Prop :=
  b.total - a.total ≤ 0

instance : DecidableRel partnerTotalRel := fun a b => Int.decLe _ _

/-- Model of `topPartnersData`: `Object.values`, derive `total`, sort descending by
total (stable), take the top 5. -/
def topPartnersData (uid : Option String) (txs : List Transaction) : List PartnerData :=
  (((topPartners uid txs).map
      (fun p => { name := p.name, incoming := p.incoming, outgoing := p.outgoing,
                  total := p.incoming + p.outgoing : PartnerData })).insertionSort
    partnerTotalRel).take 5

/-- Model of `type SortField`. -/
inductive SortField where
  | date
  | amount
  | from_
  | to_
deriving DecidableEq

/-- Model of `type SortOrder`. -/
inductive SortOrder where
  | asc
  | desc
deriving DecidableEq

/-- The component's sorter state (`sortField`, `sortOrder`). -/
structure SorterState where
  sortField : SortField
  sortOrder : SortOrder
deriving DecidableEq

/-- Model of `handleSort`: re-selecting the active field flips the order, selecting a
new field activates it with ascending order. -/
def handleSort (s : SorterState) (field : SortField) : SorterState :=
  if s.sortField = field then
    { s with sortOrder := if s.sortOrder = SortOrder.asc then SortOrder.desc else SortOrder.asc }
  else
    { sortField := field, sortOrder := SortOrder.asc }

/-- The comparison `localeCompare` modelled through the linear order on strings: negative,
zero or positive according to the comparison. -/
def strCmp (x y : String) : Int :=
  if x < y then -1 else if y < x then 1 else 0

/-- The table comparator for each sort field (before the direction
multiplier). -/
def sortCmp (f : SortField) (a b : Transaction) : Int :=
  match f with
  | SortField.date => a.createdAt.time - b.createdAt.time
  | SortField.amount => a.amount - b.amount
  | SortField.from_ => strCmp a.from_.user.name b.from_.user.name
  | SortField.to_ => strCmp a.to_.user.name b.to_.user.name

/-- Model of `const multiplier = sortOrder === 'asc' ? 1 : -1`. -/
def orderMult : SortOrder → Int
  | SortOrder.asc => 1
  | SortOrder.desc => -1

/-- The table sort comparator with direction applied, as the total preorder
`cmp a b * multiplier ≤ 0`. -/
def sortRel (f : SortField) (o : SortOrder) (a b : Transaction) : Prop :=
  sortCmp f a b * orderMult o ≤ 0

instance (f : SortField) (o : SortOrder) : DecidableRel (sortRel f o) :=
  fun a b => Int.decLe _ _

/-- Model of `sortedTransactions = [...transactions].sort(...)`: a stable sort of a
copy of the list under the current field/order. -/
def sortedTransactions (s : SorterState) (txs : List Transaction) : List Transaction :=
  txs.insertionSort (sortRel s.sortField s.sortOrder)

/-- The possible outcomes of the three concurrent reads in `fetchData`: all
three succeed, or the first failure is an axios error (optionally carrying a
response status and an error code), or a non-axios exception. -/
inductive FetchOutcome where
  | success (transactions : List Transaction) (bankAccounts : List BankAccount) (user : User)
  | axiosError (status : Option Nat) (code : Option String) (message : String)
  | otherError
deriving DecidableEq

/-- The component state touched by `fetchData`: the persisted credential
(`localStorage['czechibank_api_key']`), the error text, the authentication
flag and the loaded data. -/
structure ClientState where
  storage : Option String
  error : Option String
  isAuthenticated : Bool
  transactions : List Transaction
  accounts : List BankAccount
  currentUser : Option User
deriving DecidableEq

/-- The unauthorized-specific message shown for a 401 response. -/
def authFailedMsg : String :=
  "Authentication failed. Please check your API key and try again."

/-- The message shown for a 404 response. -/
def notFoundMsg : String :=
  "API endpoint not found. Please verify the API server is running and the endpoints are correct."

/-- The message shown for a refused connection. -/
def connRefusedMsg : String :=
  "Could not connect to the API server. Please make sure it is running at http://localhost:3000"

/-- The generic transport-failure message with the axios error text. -/
def fetchFailedMsg (msg : String) : String :=
  "Failed to fetch data: " ++ msg

/-- The message shown for a non-axios exception. -/
def unexpectedMsg : String :=
  "An unexpected error occurred. Please try again."

/-- The axios error code checked by the connection-refused branch. -/
def connRefusedCode : String := "ECONNREFUSED"

/-- Model of `fetchData`: on success adopt the three payloads, set the auth flag and
persist the credential; on failure classify (401, then 404, then
ECONNREFUSED, then generic axios, then non-axios), set the corresponding
message, and clear the persisted credential only in the 401 branch. -/
def fetchData (authToken : String) (out : FetchOutcome) (s : ClientState) : ClientState :=
  match out with
  | FetchOutcome.success txs accs usr =>
    { s with error := none, transactions := txs, accounts := accs, currentUser := some usr,
             isAuthenticated := true, storage := some authToken }
  | FetchOutcome.axiosError status code msg =>
    if status == some 401 then
      { s with error := some authFailedMsg, storage := none, isAuthenticated := false }
    else if status == some 404 then
      { s with error := some notFoundMsg, isAuthenticated := false }
    else if code == some connRefusedCode then
      { s with error := some connRefusedMsg, isAuthenticated := false }
    else
      { s with error := some (fetchFailedMsg msg), isAuthenticated := false }
  | FetchOutcome.otherError =>
    { s with error := some unexpectedMsg, isAuthenticated := false }

/-- Whether an outcome is classified as unauthorized
(`error.response?.status === 401`). -/
def isUnauthorized : FetchOutcome → Bool
  | FetchOutcome.axiosError status _ _ => status == some 401
  | _ => false

/-- Whether an outcome is the success of all three reads. -/
def isSuccess : FetchOutcome → Bool
  | FetchOutcome.success _ _ _ => true
  | _ => false

/-! ### Derived notions used to state the properties -/

/-- The signed net sum of a list of transactions (incoming positive,
outgoing negative), relative to a current-user id. -/
def netSumL (uid : Option String) (txs : List Transaction) : Int :=
  (txs.map (txSigned uid)).sum

/-- Total incoming volume: the sum of absolute amounts over the incoming
transactions. -/
def incomeVol (uid : Option String) (txs : List Transaction) : Int :=
  ((txs.filter (fun tx => isIncomingTx uid tx)).map (fun tx => |tx.amount|)).sum

/-- Total outgoing volume: the sum of absolute amounts over the outgoing
transactions. -/
def expenseVol (uid : Option String) (txs : List Transaction) : Int :=
  ((txs.filter (fun tx => !isIncomingTx uid tx)).map (fun tx => |tx.amount|)).sum

/-- The balance curve described by the spec, defined from its words: walk the
(already sorted) list run by run of equal date keys; each run contributes one
bucket holding the cumulative signed total through the end of the run.  The
`Nat` argument is structural fuel (always instantiated with the list length,
which suffices because every run is nonempty). -/
def expectedCurveAux (uid : Option String) : Nat → Int → List Transaction → List BalancePoint
  | 0, _, _ => []
  | _ + 1, _, [] => []
  | n + 1, b, t :: ts =>
    let k := txDate t
    let g := (t :: ts).takeWhile (fun s => txDate s == k)
    let rest := (t :: ts).dropWhile (fun s => txDate s == k)
    let b' := b + netSumL uid g
    { date := k, balance := b' } :: expectedCurveAux uid n b' rest

/-- The balance curve described by the spec, starting from balance `b`. -/
def expectedBalanceCurve (uid : Option String) (l : List Transaction) (b : Int) :
    List BalancePoint :=
  expectedCurveAux uid l.length b l

/-- Transactions sharing a date key are not separated in time by a
transaction with a different date key.  This is the realistic situation (it
can only fail when dates more than a year apart collide on the year-less
month/day bucket key). -/
def ContiguousDates (txs : List Transaction) : Prop :=
  ∀ a ∈ txs, ∀ b ∈ txs, ∀ c ∈ txs, txDate a = txDate b →
    a.createdAt.time < c.createdAt.time → c.createdAt.time < b.createdAt.time →
    txDate c = txDate a

instance (txs : List Transaction) : Decidable (ContiguousDates txs) := by
  unfold ContiguousDates; infer_instance

/-- The balance of the last bucket of a balance curve (0 if empty). -/
def lastCurveBalance (l : List BalancePoint) : Int :=
  ((l.getLast?).map (fun p => p.balance)).getD 0

/-- The balance of the last bucket of a running-balance series (0 if
empty). -/
def lastRunningBalance (l : List RunningPoint) : Int :=
  ((l.getLast?).map (fun p => p.balance)).getD 0

/-- The date key of the chronologically latest transaction. -/
def latestDate (txs : List Transaction) : String :=
  (((txs.insertionSort dateAscRel).getLast?).map txDate).getD ("")

/-- The signed net amount of the transactions falling in the latest date
bucket. -/
def latestDateNet (uid : Option String) (txs : List Transaction) : Int :=
  netSumL uid (txs.filter (fun t => txDate t == latestDate txs))

/-- Incoming volume attributed to the counterparty name `n`. -/
def incSumName (uid : Option String) (txs : List Transaction) (n : String) : Int :=
  ((txs.filter (fun tx => partnerNameOf uid tx == n && isIncomingTx uid tx)).map
    (fun tx => |tx.amount|)).sum

/-- Outgoing volume attributed to the counterparty name `n`. -/
def outSumName (uid : Option String) (txs : List Transaction) (n : String) : Int :=
  ((txs.filter (fun tx => partnerNameOf uid tx == n && !isIncomingTx uid tx)).map
    (fun tx => |tx.amount|)).sum

/-- The distinct elements of a list in order of first encounter. -/
def firstKeys (names : List String) : List String :=
  names.foldl (fun ks k => if k ∈ ks then ks else ks ++ [k]) []

/-- The grouped totals that the `topPartners` accumulator is expected to
hold for a counterparty name. -/
def partnerEntry (uid : Option String) (txs : List Transaction) (n : String) : PartnerAcc :=
  { name := n, incoming := incSumName uid txs n, outgoing := outSumName uid txs n }

/-- A transaction list decomposes into runs of equal date keys whose keys
never reappear after the run ends. -/
inductive KeyRuns : List Transaction → Prop where
  | nil : KeyRuns []
  | cons (t : Transaction) (ts : List Transaction)
      (hfresh : ∀ u ∈ (t :: ts).dropWhile (fun s => txDate s == txDate t),
        txDate u ≠ txDate t)
      (hrest : KeyRuns ((t :: ts).dropWhile (fun s => txDate s == txDate t))) :
      KeyRuns (t :: ts)

/-- The `lastBalance` read of the `balanceData` reduce. -/
def lastBal (acc : List BalancePoint) : Int :=
  match acc.getLast? with | some p => p.balance | none => 0

/-! ### Concrete fixtures used by witnesses and counterexamples -/

/-- Example party: the authenticated user of the fixtures. -/
def userA : Party := { name := "Alice", id := "alice" }

/-- Example party: the counterparty of the fixtures. -/
def userB : Party := { name := "Bob", id := "bob" }

/-- Builds a fixture transaction. -/
def mkTx (i : String) (amt : Int) (t : Int) (m d : Nat) (src dst : Party) : Transaction :=
  { id := i, amount := amt, createdAt := { time := t, month := m, day := d },
    currency := "CZECHITOKEN",
    from_ := { number := "111", user := src }, to_ := { number := "222", user := dst } }

/-- The current-user id of the fixtures. -/
def uidA : Option String := some ("alice")

/-- Fixture: incoming 100 on May 1st. -/
def txW1 : Transaction := mkTx ("w1") 100 1 5 1 userB userA

/-- Fixture: outgoing 40 later on May 1st. -/
def txW2 : Transaction := mkTx ("w2") 40 2 5 1 userA userB

/-- Fixture: incoming 7 on May 2nd. -/
def txW3 : Transaction := mkTx ("w3") 7 3 5 2 userB userA

/-- Fixture account whose balance (67) is the ending balance of
`[txW1, txW2, txW3]` starting from 0. -/
def accW : BankAccount :=
  { id := "a1", number := "222", balance := 67, currency := "CZECHITOKEN", user := userA }

/-- Fixture: a single incoming transaction of 100. -/
def txC1 : Transaction := mkTx ("c1") 100 0 5 1 userB userA

/-- Fixture account whose balance (100) is the ending balance of `[txC1]`
starting from 0 (the consistent seed for the single-transaction history). -/
def accC1 : BankAccount :=
  { id := "a2", number := "222", balance := 100, currency := "CZECHITOKEN", user := userA }

/-- Fixture for date-key collisions: incoming 1 on May 1st of year one. -/
def txE1 : Transaction := mkTx ("e1") 1 1 5 1 userB userA

/-- Fixture: incoming 2 on June 1st of year one. -/
def txE2 : Transaction := mkTx ("e2") 2 2 6 1 userB userA

/-- Fixture: incoming 4 on May 1st of year two — same "1. 5." bucket key as
`txE1`. -/
def txE3 : Transaction := mkTx ("e3") 4 3 5 1 userB userA

/-- Fixture: incoming 8 on June 1st of year two — same "1. 6." bucket key as
`txE2`. -/
def txE4 : Transaction := mkTx ("e4") 8 4 6 1 userB userA

/-- Fixture prior client state with a stored credential. -/
def stOld : ClientState :=
  { storage := some ("old-key"), error := none, isAuthenticated := false,
    transactions := [], accounts := [], currentUser := none }

/-- Fixture user profile. -/
def userU : User := { id := "u1", name := "U", email := "u@example.org" }

/-! ### Helper lemmas -/

theorem foldl_abs_sum (txs : List Transaction) :
    ∀ a : Int, txs.foldl (fun sum tx => sum + |tx.amount|) a
      = a + (txs.map (fun tx => |tx.amount|)).sum := by
  induction txs with
  | nil => intro a; simp
  | cons t ts ih => intro a; simp [List.foldl_cons, ih, add_assoc]

theorem transactionTypes_foldl (uid : Option String) (txs : List Transaction) :
    ∀ acc : TypeTotals,
      (txs.foldl
        (fun acc tx =>
          if isIncomingTx uid tx then { acc with Income := acc.Income + |tx.amount| }
          else { acc with Expense := acc.Expense + |tx.amount| }) acc)
      = { Income := acc.Income + incomeVol uid txs,
          Expense := acc.Expense + expenseVol uid txs } := by
  induction txs with
  | nil => intro acc; simp [incomeVol, expenseVol]
  | cons t ts ih =>
    intro acc
    by_cases h : isIncomingTx uid t
    · simp [List.foldl_cons, h, ih, incomeVol, expenseVol, List.filter_cons, add_assoc]
    · simp [List.foldl_cons, h, ih, incomeVol, expenseVol, List.filter_cons, add_assoc]

theorem vol_partition (uid : Option String) (txs : List Transaction) :
    incomeVol uid txs + expenseVol uid txs = (txs.map (fun tx => |tx.amount|)).sum := by
  induction txs with
  | nil => simp [incomeVol, expenseVol]
  | cons t ts ih =>
    by_cases h : isIncomingTx uid t
    · simp only [incomeVol, expenseVol, List.filter_cons, h] at *
      simp at *
      omega
    · simp only [incomeVol, expenseVol, List.filter_cons, h] at *
      simp at *
      omega

theorem incomeVol_nonneg (uid : Option String) (txs : List Transaction) :
    0 ≤ incomeVol uid txs := by
  apply List.sum_nonneg
  intro x hx
  rcases List.mem_map.mp hx with ⟨tx, _, rfl⟩
  exact abs_nonneg _

theorem expenseVol_nonneg (uid : Option String) (txs : List Transaction) :
    0 ≤ expenseVol uid txs := by
  apply List.sum_nonneg
  intro x hx
  rcases List.mem_map.mp hx with ⟨tx, _, rfl⟩
  exact abs_nonneg _

/-! ### Claim theorems -/

/-- C5: on the empty transaction list the summary statistics are all zero:
count 0, volume 0, average 0 (the guard short-circuits the division),
maximum 0 and minimum 0; the definition is total, so no error is raised. -/
theorem c5_stats_empty :
    transactionStats [] =
      { totalTransactions := 0, totalVolume := 0, averageAmount := 0,
        largestTransaction := 0, smallestTransaction := 0 } := rfl

/-- C3: for every transaction list and current-user id, the income total
plus the expense total equals the total volume (the sum of absolute
amounts), and both totals are non-negative. -/
theorem c3_income_expense_partition (uid : Option String) (txs : List Transaction) :
    (transactionTypes uid txs).Income + (transactionTypes uid txs).Expense
      = (transactionStats txs).totalVolume
    ∧ 0 ≤ (transactionTypes uid txs).Income
    ∧ 0 ≤ (transactionTypes uid txs).Expense := by
  have h := transactionTypes_foldl uid txs { Income := 0, Expense := 0 }
  have hv : (transactionStats txs).totalVolume = (txs.map (fun tx => |tx.amount|)).sum := by
    simp [transactionStats, totalVolumeOf, foldl_abs_sum]
  refine ⟨?_, ?_, ?_⟩
  · rw [transactionTypes, h, hv]
    simpa using vol_partition uid txs
  · rw [transactionTypes, h]
    simpa using incomeVol_nonneg uid txs
  · rw [transactionTypes, h]
    simpa using expenseVol_nonneg uid txs

/-- C9: selecting the active field keeps the field and flips the direction;
selecting a different field activates it with ascending direction. -/
theorem c9_handle_sort (s : SorterState) (f : SortField) :
    (f = s.sortField →
      handleSort s f =
        { sortField := s.sortField,
          sortOrder := if s.sortOrder = SortOrder.asc then SortOrder.desc
                       else SortOrder.asc }) ∧
    (f ≠ s.sortField →
      handleSort s f = { sortField := f, sortOrder := SortOrder.asc }) := by
  constructor
  · intro h; subst h; simp [handleSort]
  · intro h; simp [handleSort, Ne.symm h]

/-- Witness for C9 at concrete inputs: re-selecting the active date field
flips ascending to descending; selecting the amount field resets to
ascending. -/
theorem c9_handle_sort_witness :
    handleSort { sortField := SortField.date, sortOrder := SortOrder.asc } SortField.date
      = { sortField := SortField.date, sortOrder := SortOrder.desc } ∧
    handleSort { sortField := SortField.date, sortOrder := SortOrder.asc } SortField.amount
      = { sortField := SortField.amount, sortOrder := SortOrder.asc } := by
  constructor
  · exact (c9_handle_sort { sortField := SortField.date, sortOrder := SortOrder.asc }
      SortField.date).1 rfl
  · exact (c9_handle_sort { sortField := SortField.date, sortOrder := SortOrder.asc }
      SortField.amount).2 (by decide)

/-- With no authenticated user the strict comparison against the optional
chain is false for every transaction. -/
theorem isIncomingTx_none (tx : Transaction) : isIncomingTx none tx = false := rfl

/-- C10 (implicit): with no current-user profile every transaction is
classified as outgoing: the income total is 0, the expense total is the
whole volume, the signed amount of every balance-curve step subtracts, and
the counterparty name is always the receiver's name. -/
theorem c10_no_user_all_outgoing (txs : List Transaction) :
    (transactionTypes none txs).Income = 0
    ∧ (transactionTypes none txs).Expense = (transactionStats txs).totalVolume
    ∧ (∀ tx : Transaction, txSigned none tx = -|tx.amount|)
    ∧ (∀ tx : Transaction, partnerNameOf none tx = tx.to_.user.name) := by
  have h := transactionTypes_foldl none txs { Income := 0, Expense := 0 }
  have hinc : incomeVol none txs = 0 := by
    simp [incomeVol, isIncomingTx_none]
  have hexp : expenseVol none txs = (transactionStats txs).totalVolume := by
    simp [expenseVol, isIncomingTx_none, transactionStats, totalVolumeOf, foldl_abs_sum]
  refine ⟨?_, ?_, ?_, ?_⟩
  · rw [transactionTypes, h]; simpa using hinc
  · rw [transactionTypes, h]; simpa using hexp
  · intro tx; simp [txSigned, isIncomingTx_none]
  · intro tx; simp [partnerNameOf, isIncomingTx_none]

/-- C7: an unauthorized (401) outcome sets the unauthorized-specific message
and removes the persisted credential; every other failure leaves the
credential unchanged; success persists the credential. -/
theorem c7_fetch_error_handling (tok : String) (s : ClientState) (out : FetchOutcome) :
    (isUnauthorized out = true →
      (fetchData tok out s).error = some authFailedMsg
      ∧ (fetchData tok out s).storage = none)
    ∧ (isSuccess out = false → isUnauthorized out = false →
      (fetchData tok out s).storage = s.storage)
    ∧ (isSuccess out = true → (fetchData tok out s).storage = some tok) := by
  cases out with
  | success txs accs usr =>
    refine ⟨fun h => by simp [isUnauthorized] at h, fun h => by simp [isSuccess] at h,
      fun _ => by simp [fetchData]⟩
  | axiosError status code msg =>
    refine ⟨fun h => ?_, fun _ h => ?_, fun h => by simp [isSuccess] at h⟩
    · have h' : (status == some 401) = true := by simpa [isUnauthorized] using h
      simp [fetchData, h']
    · have h' : (status == some 401) = false := by simpa [isUnauthorized] using h
      simp only [fetchData, h', Bool.false_eq_true, if_false]
      split
      · rfl
      · split
        · rfl
        · rfl
  | otherError =>
    refine ⟨fun h => by simp [isUnauthorized] at h, fun _ _ => rfl,
      fun h => by simp [isSuccess] at h⟩

/-- Witness for C7 at concrete outcomes: a 401 failure shows the
unauthorized message and clears the stored key, a 500 failure leaves the
stored key, and a success stores the submitted key. -/
theorem c7_fetch_error_handling_witness :
    ((fetchData ("new-key") (FetchOutcome.axiosError (some 401) none ("unauth")) stOld).error
        = some authFailedMsg
      ∧ (fetchData ("new-key") (FetchOutcome.axiosError (some 401) none ("unauth")) stOld).storage
        = none)
    ∧ (fetchData ("new-key") (FetchOutcome.axiosError (some 500) none ("boom")) stOld).storage
        = stOld.storage
    ∧ (fetchData ("new-key") (FetchOutcome.success [] [] userU) stOld).storage
        = some ("new-key") := by
  refine ⟨?_, ?_, ?_⟩
  · exact (c7_fetch_error_handling ("new-key")
      stOld (FetchOutcome.axiosError (some 401) none ("unauth"))).1 rfl
  · exact (c7_fetch_error_handling ("new-key")
      stOld (FetchOutcome.axiosError (some 500) none ("boom"))).2.1 rfl (by decide)
  · exact (c7_fetch_error_handling ("new-key")
      stOld (FetchOutcome.success [] [] userU)).2.2 rfl

/-- C2 (code bug): the chronological balance curve calls
`Array.prototype.sort` directly on the `transactions` state array, so
computing it reorders the input list in place.  Evaluated at a
two-transaction list in reverse chronological order, the array afterwards is
in a different order than before. -/
theorem c2_balance_sort_mutates :
    transactionsAfterBalanceData [txW2, txW1] = [txW1, txW2]
    ∧ ([txW1, txW2] : List Transaction) ≠ [txW2, txW1] := by
  constructor
  · decide
  · decide

/-- The inequality `strCmp x y ≤ 0` is the order `x ≤ y`. -/
theorem strCmp_nonpos_iff (x y : String) : strCmp x y ≤ 0 ↔ x ≤ y := by
  unfold strCmp
  rcases lt_trichotomy x y with h | h | h
  · simp [h, le_of_lt h, not_lt_of_lt h]
  · simp [h, lt_irrefl]
  · simp [h, not_lt_of_lt h, not_le_of_lt h]

/-- The inequality `0 ≤ strCmp x y` is the order `y ≤ x`. -/
theorem strCmp_nonneg_iff (x y : String) : 0 ≤ strCmp x y ↔ y ≤ x := by
  unfold strCmp
  rcases lt_trichotomy x y with h | h | h
  · simp [h, not_le_of_lt h]
  · simp [h, lt_irrefl, le_of_eq h.symm]
  · simp [h, not_lt_of_lt h, le_of_lt h]

/-- The table comparator relation is total for every field and direction. -/
theorem sortRel_total (f : SortField) (o : SortOrder) :
    ∀ a b, sortRel f o a b ∨ sortRel f o b a := by
  intro a b
  cases f <;> cases o <;>
    simp only [sortRel, sortCmp, orderMult, mul_one, mul_neg, neg_nonpos] <;>
    first
    | omega
    | (rw [strCmp_nonpos_iff, strCmp_nonpos_iff]; exact le_total _ _)
    | (rw [strCmp_nonneg_iff, strCmp_nonneg_iff]; exact le_total _ _)

/-- The table comparator relation is transitive for every field and
direction. -/
theorem sortRel_trans (f : SortField) (o : SortOrder) :
    ∀ a b c, sortRel f o a b → sortRel f o b c → sortRel f o a c := by
  intro a b c
  cases f <;> cases o <;>
    simp only [sortRel, sortCmp, orderMult, mul_one, mul_neg, neg_nonpos] <;>
    first
    | omega
    | (rw [strCmp_nonpos_iff, strCmp_nonpos_iff, strCmp_nonpos_iff]; exact le_trans)
    | (rw [strCmp_nonneg_iff, strCmp_nonneg_iff, strCmp_nonneg_iff]
       exact fun h1 h2 => le_trans h2 h1)

/-- C8: re-applying the table sort with the same field and direction is the
identity on the already-sorted list, and toggling the active field twice
restores the sorter state, hence the displayed order. -/
theorem c8_sort_idempotent_toggle (s : SorterState) (txs : List Transaction) :
    sortedTransactions s (sortedTransactions s txs) = sortedTransactions s txs
    ∧ sortedTransactions (handleSort (handleSort s s.sortField) s.sortField) txs
      = sortedTransactions s txs := by
  constructor
  · haveI : IsTotal Transaction (sortRel s.sortField s.sortOrder) :=
      ⟨sortRel_total s.sortField s.sortOrder⟩
    haveI : IsTrans Transaction (sortRel s.sortField s.sortOrder) :=
      ⟨sortRel_trans s.sortField s.sortOrder⟩
    simp only [sortedTransactions]
    exact (List.sorted_insertionSort _ txs).insertionSort_eq
  · have hstate : handleSort (handleSort s s.sortField) s.sortField = s := by
      rcases s with ⟨f, o⟩
      cases o <;> simp [handleSort]
    rw [hstate]

/-! ### The chronological balance curve on run-structured inputs -/

/-- The fuel argument of `expectedCurveAux` is irrelevant once it covers the
list length. -/
theorem expectedCurveAux_fuel (uid : Option String) :
    ∀ n m (b : Int) (l : List Transaction), l.length ≤ n → l.length ≤ m →
      expectedCurveAux uid n b l = expectedCurveAux uid m b l := by
  intro n
  induction n with
  | zero =>
    intro m b l h1 _
    have hl : l = [] := List.eq_nil_of_length_eq_zero (Nat.le_zero.mp h1)
    subst hl
    cases m <;> rfl
  | succ n ih =>
    intro m b l h1 h2
    cases l with
    | nil => cases m <;> rfl
    | cons t ts =>
      cases m with
      | zero => simp at h2
      | succ m' =>
        have hdrop : ((t :: ts).dropWhile (fun s => txDate s == txDate t)).length ≤ ts.length := by
          rw [List.dropWhile_cons]
          simp only [beq_self_eq_true, if_true]
          exact (List.dropWhile_sublist _).length_le
        simp only [expectedCurveAux]
        congr 1
        exact ih m' _ _ (le_trans hdrop (Nat.succ_le_succ_iff.mp h1))
          (le_trans hdrop (Nat.succ_le_succ_iff.mp h2))

/-- Processing a run of transactions sharing the fresh date key `k` only
updates the final bucket, accumulating the signed run total into it. -/
theorem foldl_balanceStep_run (uid : Option String) (k : String) :
    ∀ (g : List Transaction) (acc : List BalancePoint) (b : Int),
      (∀ s ∈ g, txDate s = k) → (∀ p ∈ acc, p.date ≠ k) →
      g.foldl (balanceStep uid) (acc ++ [{ date := k, balance := b }])
        = acc ++ [{ date := k, balance := b + netSumL uid g }] := by
  intro g
  induction g with
  | nil => intro acc b _ _; simp [netSumL]
  | cons s g' ih =>
    intro acc b hg hacc
    have hs : txDate s = k := hg s (by simp)
    have hnone : acc.findIdx? (fun p => p.date == k) = none := by
      rw [List.findIdx?_eq_none_iff]
      intro p hp
      simp [hacc p hp]
    have hstep : balanceStep uid (acc ++ [{ date := k, balance := b }]) s
        = acc ++ [{ date := k, balance := b + txSigned uid s }] := by
      simp [balanceStep, List.getLast?_concat, List.findIdx?_append, hnone, hs,
        List.getElem?_concat_length, List.set_append_right]
    rw [List.foldl_cons, hstep,
      ih acc (b + txSigned uid s) (fun x hx => hg x (by simp [hx])) hacc]
    have harith : b + txSigned uid s + netSumL uid g' = b + netSumL uid (s :: g') := by
      simp [netSumL]
      ring
    rw [harith]

/-- Processing a run with a date key fresh for the whole accumulator appends
one bucket holding the previous last balance plus the signed run total. -/
theorem foldl_balanceStep_freshRun (uid : Option String) (k : String)
    (g : List Transaction) (acc : List BalancePoint)
    (hg : ∀ s ∈ g, txDate s = k) (hne : g ≠ []) (hacc : ∀ p ∈ acc, p.date ≠ k) :
    g.foldl (balanceStep uid) acc
      = acc ++ [{ date := k, balance := lastBal acc + netSumL uid g }] := by
  cases g with
  | nil => exact absurd rfl hne
  | cons s g' =>
    have hs : txDate s = k := hg s (by simp)
    have hnone : acc.findIdx? (fun p => p.date == k) = none := by
      rw [List.findIdx?_eq_none_iff]
      intro p hp
      simp [hacc p hp]
    have hstep : balanceStep uid acc s
        = acc ++ [{ date := k, balance := lastBal acc + txSigned uid s }] := by
      simp [balanceStep, hnone, hs, lastBal]
    rw [List.foldl_cons, hstep,
      foldl_balanceStep_run uid k g' acc (lastBal acc + txSigned uid s)
        (fun x hx => hg x (by simp [hx])) hacc]
    have harith : lastBal acc + txSigned uid s + netSumL uid g'
        = lastBal acc + netSumL uid (s :: g') := by
      simp [netSumL]
      ring
    rw [harith]

/-- On a run-structured list the `balanceData` reduce appends exactly the
spec's balance curve, seeded with the accumulator's last balance. -/
theorem foldl_balanceStep_keyRuns (uid : Option String) :
    ∀ {l : List Transaction}, KeyRuns l → ∀ acc : List BalancePoint,
      (∀ p ∈ acc, ∀ t ∈ l, p.date ≠ txDate t) →
      l.foldl (balanceStep uid) acc = acc ++ expectedBalanceCurve uid l (lastBal acc) := by
  intro l hruns
  induction hruns with
  | nil => intro acc _; simp [expectedBalanceCurve, expectedCurveAux]
  | cons t ts hfresh hrest ih =>
    intro acc hacc
    have hsplit : (t :: ts)
        = (t :: ts).takeWhile (fun s => txDate s == txDate t)
          ++ (t :: ts).dropWhile (fun s => txDate s == txDate t) :=
      (List.takeWhile_append_dropWhile _ _).symm
    have hgmem : ∀ s ∈ (t :: ts).takeWhile (fun s => txDate s == txDate t),
        txDate s = txDate t := by
      intro s hs
      have hb := List.mem_takeWhile_imp hs
      exact eq_of_beq hb
    have hgne : (t :: ts).takeWhile (fun s => txDate s == txDate t) ≠ [] := by
      rw [List.takeWhile_cons]
      simp
    have hacck : ∀ p ∈ acc, p.date ≠ txDate t := fun p hp => hacc p hp t (by simp)
    have hfree : ∀ b : Int, ∀ p ∈ acc ++ [({ date := txDate t, balance := b } : BalancePoint)],
        ∀ u ∈ (t :: ts).dropWhile (fun s => txDate s == txDate t), p.date ≠ txDate u := by
      intro b p hp u hu
      rcases List.mem_append.mp hp with hp | hp
      · exact hacc p hp u ((List.dropWhile_sublist _).subset hu)
      · have hpk : p.date = txDate t := by
          rcases List.mem_singleton.mp hp with rfl
          rfl
        rw [hpk]
        exact fun h => hfresh u hu h.symm
    have hlb : ∀ b : Int,
        lastBal (acc ++ [({ date := txDate t, balance := b } : BalancePoint)]) = b := by
      intro b
      simp [lastBal, List.getLast?_concat]
    have hdroplen : ((t :: ts).dropWhile (fun s => txDate s == txDate t)).length
        ≤ ts.length := by
      rw [List.dropWhile_cons]
      simp only [beq_self_eq_true, if_true]
      exact (List.dropWhile_sublist _).length_le
    have hout : expectedBalanceCurve uid (t :: ts) (lastBal acc)
        = ({ date := txDate t,
             balance := lastBal acc
               + netSumL uid ((t :: ts).takeWhile (fun s => txDate s == txDate t)) }
            : BalancePoint)
          :: expectedCurveAux uid ts.length
              (lastBal acc + netSumL uid ((t :: ts).takeWhile (fun s => txDate s == txDate t)))
              ((t :: ts).dropWhile (fun s => txDate s == txDate t)) := by
      simp only [expectedBalanceCurve, List.length_cons, expectedCurveAux]
    conv_lhs => rw [hsplit]
    rw [List.foldl_append,
      foldl_balanceStep_freshRun uid (txDate t) _ acc hgmem hgne hacck,
      ih _ (hfree _), hlb, List.append_assoc, hout, List.singleton_append,
      expectedBalanceCurve]
    exact congrArg (fun xs => acc ++ _ :: xs)
      (expectedCurveAux_fuel uid _ _ _ _ (le_refl _) hdroplen)

/-- Every bucket date of the spec curve comes from some transaction of the
input. -/
theorem expectedCurveAux_dates_subset (uid : Option String) :
    ∀ (n : Nat) (b : Int) (l : List Transaction) (p : BalancePoint),
      p ∈ expectedCurveAux uid n b l → p.date ∈ l.map txDate := by
  intro n
  induction n with
  | zero => intro b l p hp; simp [expectedCurveAux] at hp
  | succ n ih =>
    intro b l p hp
    cases l with
    | nil => simp [expectedCurveAux] at hp
    | cons t ts =>
      simp only [expectedCurveAux] at hp
      rcases List.mem_cons.mp hp with rfl | hp
      · simp
      · have := ih _ _ p hp
        exact ((List.dropWhile_sublist _).map txDate).subset this

/-- On a run-structured list the spec curve has pairwise-distinct bucket
dates. -/
theorem expectedCurve_dates_nodup (uid : Option String) :
    ∀ {l : List Transaction}, KeyRuns l → ∀ b : Int,
      ((expectedBalanceCurve uid l b).map (fun p => p.date)).Nodup := by
  intro l hruns
  induction hruns with
  | nil => intro b; simp [expectedBalanceCurve, expectedCurveAux]
  | cons t ts hfresh hrest ih =>
    intro b
    simp only [expectedBalanceCurve, List.length_cons, expectedCurveAux, List.map_cons]
    rw [List.nodup_cons]
    constructor
    · intro hmem
      rcases List.mem_map.mp hmem with ⟨p, hp, hpd⟩
      have hsub := expectedCurveAux_dates_subset uid _ _ _ p hp
      rcases List.mem_map.mp hsub with ⟨u, hu, hud⟩
      exact hfresh u hu (by rw [hud, hpd])
    · have hdroplen : ((t :: ts).dropWhile (fun s => txDate s == txDate t)).length
          ≤ ts.length := by
        rw [List.dropWhile_cons]
        simp only [beq_self_eq_true, if_true]
        exact (List.dropWhile_sublist _).length_le
      have hfuel := expectedCurveAux_fuel uid
        ((t :: ts).dropWhile (fun s => txDate s == txDate t)).length ts.length
        (b + netSumL uid ((t :: ts).takeWhile (fun s => txDate s == txDate t)))
        ((t :: ts).dropWhile (fun s => txDate s == txDate t)) (le_refl _) hdroplen
      rw [← hfuel]
      exact ih _

/-- A list sorted by a relation along which equal date keys cannot be
interrupted decomposes into runs of fresh date keys. -/
theorem keyRuns_of_sorted (S : Transaction → Prop) (r : Transaction → Transaction → Prop)
    (hc : ∀ a c u, S a → S c → S u → r a c → r c u → txDate a = txDate u →
      txDate c = txDate a) :
    ∀ (n : Nat) (l : List Transaction), l.length ≤ n → l.Pairwise r → (∀ x ∈ l, S x) →
      KeyRuns l := by
  intro n
  induction n with
  | zero =>
    intro l hlen _ _
    have hl : l = [] := List.eq_nil_of_length_eq_zero (Nat.le_zero.mp hlen)
    subst hl
    exact KeyRuns.nil
  | succ n ih =>
    intro l hlen hpair hmem
    cases l with
    | nil => exact KeyRuns.nil
    | cons t ts =>
      have hrest_def : (t :: ts).dropWhile (fun s => txDate s == txDate t)
          = ts.dropWhile (fun s => txDate s == txDate t) := by
        rw [List.dropWhile_cons]
        simp
      have hsubts : List.Sublist ((t :: ts).dropWhile (fun s => txDate s == txDate t)) ts := by
        rw [hrest_def]
        exact List.dropWhile_sublist _
      refine KeyRuns.cons t ts ?_ ?_
      · intro u hu heq
        rcases hdrop : (t :: ts).dropWhile (fun s => txDate s == txDate t) with _ | ⟨c, cs⟩
        · rw [hdrop] at hu
          exact absurd hu (List.not_mem_nil u)
        · rw [hdrop] at hu
          have hcne : txDate c ≠ txDate t := by
            have hh := List.head?_dropWhile_not (fun s => txDate s == txDate t) (t :: ts)
            rw [hdrop] at hh
            simp only [List.head?_cons, Option.map_some] at hh
            intro habs
            simp [habs] at hh
          rcases List.mem_cons.mp hu with rfl | hu'
          · exact hcne heq
          · have hsub : List.Sublist (c :: cs) ts := hdrop ▸ hsubts
            have hrt_c : r t c :=
              (List.pairwise_cons.mp hpair).1 c (hsub.subset (List.mem_cons_self c cs))
            have hp2 : (c :: cs).Pairwise r :=
              ((List.pairwise_cons.mp hpair).2).sublist hsub
            have hr_cu : r c u := (List.pairwise_cons.mp hp2).1 u hu'
            have hSc : S c := hmem c (List.mem_cons_of_mem t (hsub.subset (List.mem_cons_self c cs)))
            have hSu : S u := hmem u (List.mem_cons_of_mem t (hsub.subset (List.mem_cons_of_mem c hu')))
            have := hc t c u (hmem t (List.mem_cons_self t ts)) hSc hSu hrt_c hr_cu heq.symm
            exact hcne this
      · rw [hrest_def]
        refine ih (ts.dropWhile (fun s => txDate s == txDate t)) ?_ ?_ ?_
        · exact le_trans (List.dropWhile_sublist _).length_le (Nat.succ_le_succ_iff.mp hlen)
        · exact ((List.pairwise_cons.mp hpair).2).sublist (List.dropWhile_sublist _)
        · intro x hx
          exact hmem x (List.mem_cons_of_mem t ((List.dropWhile_sublist _).subset hx))

/-- Under pairwise-distinct timestamps and contiguous dates, the
time-ascending sort of the transaction list is run-structured. -/
theorem keyRuns_sorted_asc (txs : List Transaction)
    (hdistinct : txs.Pairwise (fun a b => a.createdAt.time ≠ b.createdAt.time))
    (hcontig : ContiguousDates txs) :
    KeyRuns (txs.insertionSort dateAscRel) := by
  have hsorted : (txs.insertionSort dateAscRel).Pairwise dateAscRel :=
    List.sorted_insertionSort dateAscRel txs
  have hperm : List.Perm (txs.insertionSort dateAscRel) txs := List.perm_insertionSort _ _
  have hne : (txs.insertionSort dateAscRel).Pairwise
      (fun a b => a.createdAt.time ≠ b.createdAt.time) :=
    (hperm.pairwise_iff (fun h => h.symm)).mpr hdistinct
  have hstrict : (txs.insertionSort dateAscRel).Pairwise
      (fun a b => a.createdAt.time < b.createdAt.time) := by
    have hand := hsorted.and hne
    exact hand.imp (by intro a b hab; rcases hab with ⟨h1, h2⟩; unfold dateAscRel at h1; omega)
  refine keyRuns_of_sorted (fun x => x ∈ txs)
    (fun a b => a.createdAt.time < b.createdAt.time) ?_ _ _ (le_refl _) hstrict ?_
  · intro a c u ha hcx hu h1 h2 heq
    exact hcontig a ha u hu c hcx heq h1 h2
  · intro x hx
    exact hperm.subset hx

/-- C6 (amended): for every transaction list with pairwise-distinct
timestamps whose equal-date transactions are not separated in time by a
differently-dated transaction (always true unless date keys of distinct
calendar days collide across years), the chronological balance curve sorts
ascending by timestamp, starts at 0, adds incoming and subtracts outgoing
amounts run by run, and produces exactly one bucket per date key, each
holding the cumulative balance after the latest transaction of its date. -/
theorem c6_balance_curve_amended (uid : Option String) (txs : List Transaction)
    (hdistinct : txs.Pairwise (fun a b => a.createdAt.time ≠ b.createdAt.time))
    (hcontig : ContiguousDates txs) :
    balanceData uid txs = expectedBalanceCurve uid (txs.insertionSort dateAscRel) 0
    ∧ ((balanceData uid txs).map (fun p => p.date)).Nodup := by
  have hruns := keyRuns_sorted_asc txs hdistinct hcontig
  have hmain := foldl_balanceStep_keyRuns uid hruns [] (by simp)
  have hcurve : balanceData uid txs
      = expectedBalanceCurve uid (txs.insertionSort dateAscRel) 0 := by
    rw [balanceData, hmain]
    simp [lastBal]
  exact ⟨hcurve, by rw [hcurve]; exact expectedCurve_dates_nodup uid hruns 0⟩

/-- Witness for C6 at a concrete list: two same-day transactions (incoming
100, outgoing 40) followed by a next-day incoming 7 produce the curve
[(day 1, 60), (day 2, 67)] predicted by the spec's description. -/
theorem c6_balance_curve_amended_witness :
    List.Pairwise (fun a b => a.createdAt.time ≠ b.createdAt.time) [txW1, txW2, txW3]
    ∧ ContiguousDates [txW1, txW2, txW3]
    ∧ balanceData uidA [txW1, txW2, txW3]
        = expectedBalanceCurve uidA ([txW1, txW2, txW3].insertionSort dateAscRel) 0 := by
  refine ⟨by decide, by decide, ?_⟩
  exact (c6_balance_curve_amended uidA [txW1, txW2, txW3] (by decide) (by decide)).1

/-- Counterexample to C6 as stated: with date keys colliding across years
(keys "1. 5.", "1. 6.", "1. 5.", "1. 6." in time order, all incoming with
amounts 1, 2, 4, 8), the bucket of the latest date holds 11, not the
cumulative balance 15 after its latest transaction — the running total read
from the last bucket misses the amount folded into the earlier overwritten
bucket. -/
theorem c6_counterexample :
    balanceData uidA [txE1, txE2, txE3, txE4]
      = [{ date := "1. 5.", balance := 7 }, { date := "1. 6.", balance := 11 }]
    ∧ netSumL uidA [txE1, txE2, txE3, txE4] = 15
    ∧ (11 : Int) ≠ 15 := by
  refine ⟨by decide, by decide, by decide⟩

/-! ### The reverse running balance on run-structured inputs -/

/-- Within a run of transactions sharing date key `k`, the reverse reduce
keeps a single bucket, undoing each transaction from its balance. -/
theorem foldl_runningStep_run (uid : Option String) (seed : Int) (k : String) :
    ∀ (g : List Transaction) (b i o : Int), (∀ s ∈ g, txDate s = k) →
      ∃ i' o', g.foldl (runningStep uid seed)
          [{ date := k, balance := b, incoming := i, outgoing := o }]
        = [{ date := k, balance := b - netSumL uid g, incoming := i', outgoing := o' }] := by
  intro g
  induction g with
  | nil => intro b i o _; exact ⟨i, o, by simp [netSumL]⟩
  | cons s g' ih =>
    intro b i o hg
    have hs : txDate s = k := hg s (by simp)
    have hstep : runningStep uid seed
        [{ date := k, balance := b, incoming := i, outgoing := o }] s
        = [{ date := k, balance := b - txSigned uid s,
             incoming := if isIncomingTx uid s then i + |s.amount| else i,
             outgoing := if isIncomingTx uid s then o else o - |s.amount| }] := by
      by_cases hinc : isIncomingTx uid s <;>
        simp [runningStep, hs, hinc, txSigned, sub_eq_add_neg]
    obtain ⟨i', o', hrec⟩ := ih (b - txSigned uid s)
      (if isIncomingTx uid s then i + |s.amount| else i)
      (if isIncomingTx uid s then o else o - |s.amount|)
      (fun x hx => hg x (by simp [hx]))
    refine ⟨i', o', ?_⟩
    rw [List.foldl_cons, hstep, hrec]
    have harith : b - txSigned uid s - netSumL uid g' = b - netSumL uid (s :: g') := by
      simp [netSumL]
      ring
    rw [harith]

/-- Processing the first (newest) run from the empty accumulator produces a
single bucket holding the seed minus the run's signed net amount: the
balance *before* the run's transactions. -/
theorem foldl_runningStep_firstRun (uid : Option String) (seed : Int) (k : String)
    (g : List Transaction) (hg : ∀ s ∈ g, txDate s = k) (hne : g ≠ []) :
    ∃ i' o', g.foldl (runningStep uid seed) []
      = [{ date := k, balance := seed - netSumL uid g, incoming := i', outgoing := o' }] := by
  cases g with
  | nil => exact absurd rfl hne
  | cons s g' =>
    have hs : txDate s = k := hg s (by simp)
    have hstep : runningStep uid seed [] s
        = [{ date := k, balance := seed - txSigned uid s,
             incoming := if isIncomingTx uid s then |s.amount| else 0,
             outgoing := if isIncomingTx uid s then 0 else -|s.amount| }] := by
      by_cases hinc : isIncomingTx uid s <;>
        simp [runningStep, hs, hinc, txSigned, sub_eq_add_neg]
    obtain ⟨i', o', hrec⟩ := foldl_runningStep_run uid seed k g' (seed - txSigned uid s)
      (if isIncomingTx uid s then |s.amount| else 0)
      (if isIncomingTx uid s then 0 else -|s.amount|)
      (fun x hx => hg x (by simp [hx]))
    refine ⟨i', o', ?_⟩
    rw [List.foldl_cons, hstep, hrec]
    have harith : seed - txSigned uid s - netSumL uid g' = seed - netSumL uid (s :: g') := by
      simp [netSumL]
      ring
    rw [harith]

/-- Transactions whose date differs from the head bucket's date never touch
the head bucket. -/
theorem foldl_runningStep_head (uid : Option String) (seed : Int) :
    ∀ (l : List Transaction) (p : RunningPoint) (acc : List RunningPoint),
      (∀ t ∈ l, txDate t ≠ p.date) →
      ∃ acc', l.foldl (runningStep uid seed) (p :: acc) = p :: acc' := by
  intro l
  induction l with
  | nil => intro p acc _; exact ⟨acc, rfl⟩
  | cons t l' ih =>
    intro p acc hl
    have hpred : (p.date == txDate t) = false := by
      simp
      exact fun h => hl t (by simp) h.symm
    have hstep : (runningStep uid seed (p :: acc) t).head? = some p := by
      rw [runningStep]
      cases hfi : acc.findIdx? (fun q => q.date == txDate t) with
      | none =>
        simp [List.findIdx?_cons, hpred, hfi]
      | some j =>
        cases hget : acc[j]? with
        | none => simp [List.findIdx?_cons, hpred, hfi, hget]
        | some q => simp [List.findIdx?_cons, hpred, hfi, hget, List.set_cons_succ]
    rcases List.head?_eq_some_iff.mp hstep with ⟨acc₂, hacc₂⟩
    rw [List.foldl_cons, hacc₂]
    exact ih p acc₂ (fun u hu => hl u (List.mem_cons_of_mem _ hu))

/-- Two permutations of the same transactions, both strictly descending by
timestamp, are equal. -/
theorem eq_of_perm_strict_time_desc :
    ∀ l₁ l₂ : List Transaction, List.Perm l₁ l₂ →
      l₁.Pairwise (fun a b => b.createdAt.time < a.createdAt.time) →
      l₂.Pairwise (fun a b => b.createdAt.time < a.createdAt.time) → l₁ = l₂ := by
  intro l₁
  induction l₁ with
  | nil =>
    intro l₂ hp _ _
    exact (List.Perm.eq_nil hp.symm).symm
  | cons a t₁ ih =>
    intro l₂ hp h₁ h₂
    cases l₂ with
    | nil => exact absurd (List.Perm.eq_nil hp) (by simp)
    | cons b t₂ =>
      by_cases hab : a = b
      · subst hab
        rw [ih t₂ hp.cons_inv h₁.of_cons h₂.of_cons]
      · exfalso
        have ha2 : a ∈ b :: t₂ := hp.subset (List.mem_cons_self a t₁)
        have hat2 : a ∈ t₂ := by
          rcases List.mem_cons.mp ha2 with h | h
          · exact absurd h hab
          · exact h
        have hlt1 : a.createdAt.time < b.createdAt.time :=
          (List.pairwise_cons.mp h₂).1 a hat2
        have hb1 : b ∈ a :: t₁ := hp.symm.subset (List.mem_cons_self b t₂)
        have hbt1 : b ∈ t₁ := by
          rcases List.mem_cons.mp hb1 with h | h
          · exact absurd h (Ne.symm hab)
          · exact h
        have hlt2 : b.createdAt.time < a.createdAt.time :=
          (List.pairwise_cons.mp h₁).1 b hbt1
        omega

/-- With pairwise-distinct timestamps the newest-first sort is exactly the
reverse of the oldest-first sort. -/
theorem insertionSort_desc_eq_reverse (txs : List Transaction)
    (hdistinct : txs.Pairwise (fun a b => a.createdAt.time ≠ b.createdAt.time)) :
    txs.insertionSort dateDescRel = (txs.insertionSort dateAscRel).reverse := by
  have hpermd : List.Perm (txs.insertionSort dateDescRel) txs := List.perm_insertionSort _ _
  have hperma : List.Perm (txs.insertionSort dateAscRel) txs := List.perm_insertionSort _ _
  have hperm : List.Perm (txs.insertionSort dateDescRel)
      ((txs.insertionSort dateAscRel).reverse) :=
    hpermd.trans (hperma.symm.trans (List.reverse_perm _).symm)
  have hsd : (txs.insertionSort dateDescRel).Pairwise dateDescRel :=
    List.sorted_insertionSort dateDescRel txs
  have hned : (txs.insertionSort dateDescRel).Pairwise
      (fun a b => a.createdAt.time ≠ b.createdAt.time) :=
    (hpermd.pairwise_iff (fun h => h.symm)).mpr hdistinct
  have hstrictd : (txs.insertionSort dateDescRel).Pairwise
      (fun a b => b.createdAt.time < a.createdAt.time) := by
    have hand := hsd.and hned
    exact hand.imp (by intro a b hab; rcases hab with ⟨h1, h2⟩; unfold dateDescRel at h1; omega)
  have hsa : (txs.insertionSort dateAscRel).Pairwise dateAscRel :=
    List.sorted_insertionSort dateAscRel txs
  have hnea : (txs.insertionSort dateAscRel).Pairwise
      (fun a b => a.createdAt.time ≠ b.createdAt.time) :=
    (hperma.pairwise_iff (fun h => h.symm)).mpr hdistinct
  have hstricta : ((txs.insertionSort dateAscRel).reverse).Pairwise
      (fun a b => b.createdAt.time < a.createdAt.time) := by
    rw [List.pairwise_reverse]
    have hand := hsa.and hnea
    exact hand.imp (by intro a b hab; rcases hab with ⟨h1, h2⟩; unfold dateAscRel at h1; omega)
  exact eq_of_perm_strict_time_desc _ _ hperm hstrictd hstricta

/-- The last balance of the spec curve is the start balance plus the signed
net total. -/
theorem expectedCurve_lastBalance (uid : Option String) :
    ∀ {l : List Transaction}, KeyRuns l → l ≠ [] → ∀ b : Int,
      lastCurveBalance (expectedBalanceCurve uid l b) = b + netSumL uid l := by
  intro l hruns
  induction hruns with
  | nil => intro h; exact absurd rfl h
  | cons t ts hfresh hrest ih =>
    intro _ b
    have hsplit : (t :: ts)
        = (t :: ts).takeWhile (fun s => txDate s == txDate t)
          ++ (t :: ts).dropWhile (fun s => txDate s == txDate t) :=
      (List.takeWhile_append_dropWhile _ _).symm
    have hnet : netSumL uid (t :: ts)
        = netSumL uid ((t :: ts).takeWhile (fun s => txDate s == txDate t))
          + netSumL uid ((t :: ts).dropWhile (fun s => txDate s == txDate t)) := by
      conv_lhs => rw [hsplit]
      simp only [netSumL, List.map_append, List.sum_append]
    have hdroplen : ((t :: ts).dropWhile (fun s => txDate s == txDate t)).length
        ≤ ts.length := by
      rw [List.dropWhile_cons]
      simp only [beq_self_eq_true, if_true]
      exact (List.dropWhile_sublist _).length_le
    have hout : expectedBalanceCurve uid (t :: ts) b
        = ({ date := txDate t,
             balance := b + netSumL uid ((t :: ts).takeWhile (fun s => txDate s == txDate t)) }
            : BalancePoint)
          :: expectedCurveAux uid ts.length
              (b + netSumL uid ((t :: ts).takeWhile (fun s => txDate s == txDate t)))
              ((t :: ts).dropWhile (fun s => txDate s == txDate t)) := by
      simp only [expectedBalanceCurve, List.length_cons, expectedCurveAux]
    rw [hout]
    cases hdrop : (t :: ts).dropWhile (fun s => txDate s == txDate t) with
    | nil =>
      have hnet0 : netSumL uid ((t :: ts).dropWhile (fun s => txDate s == txDate t)) = 0 := by
        rw [hdrop]; simp [netSumL]
      have haux : expectedCurveAux uid ts.length
          (b + netSumL uid ((t :: ts).takeWhile (fun s => txDate s == txDate t)))
          ([] : List Transaction) = [] := by
        cases ts.length <;> rfl
      have hsingle : ∀ p : BalancePoint, lastCurveBalance [p] = p.balance := by
        intro p; simp [lastCurveBalance]
      rw [haux, hsingle]
      rw [hnet, hnet0]
      ring
    | cons r rs =>
      have hfuel : expectedCurveAux uid ts.length
            (b + netSumL uid ((t :: ts).takeWhile (fun s => txDate s == txDate t))) (r :: rs)
          = expectedBalanceCurve uid (r :: rs)
              (b + netSumL uid ((t :: ts).takeWhile (fun s => txDate s == txDate t))) := by
        rw [expectedBalanceCurve]
        apply expectedCurveAux_fuel
        · rw [← hdrop]; exact hdroplen
        · exact le_refl _
      rw [hfuel]
      have hih := ih (by rw [hdrop]; simp)
        (b + netSumL uid ((t :: ts).takeWhile (fun s => txDate s == txDate t)))
      rw [hdrop] at hih
      have hcurve_ne : expectedBalanceCurve uid (r :: rs)
          (b + netSumL uid ((t :: ts).takeWhile (fun s => txDate s == txDate t))) ≠ [] := by
        simp only [expectedBalanceCurve, List.length_cons, expectedCurveAux]
        exact List.cons_ne_nil _ _
      have hlast : ∀ (x : BalancePoint) (ys : List BalancePoint), ys ≠ [] →
          lastCurveBalance (x :: ys) = lastCurveBalance ys := by
        intro x ys hys
        cases ys with
        | nil => exact absurd rfl hys
        | cons y ys' => simp [lastCurveBalance, List.getLast?_cons_cons]
      rw [hlast _ _ hcurve_ne, hih, hnet, hdrop]
      ring

/-- C1 (amended): with pairwise-distinct timestamps, contiguous date keys
and a consistent seed (the first account's balance equals the forward ending
balance), the forward curve ends at the signed net total, while the latest
bucket of the reversed running-balance curve holds that total *minus* the
net amount of the latest date's transactions: the reverse walk records the
balance before each transaction, so the two curves differ at the latest
bucket by exactly the latest day's net. -/
theorem c1_round_trip_amended (uid : Option String) (accounts : List BankAccount)
    (txs : List Transaction)
    (hne : txs ≠ [])
    (hdistinct : txs.Pairwise (fun a b => a.createdAt.time ≠ b.createdAt.time))
    (hcontig : ContiguousDates txs)
    (hseed : accountSeed accounts = netSumL uid txs) :
    lastRunningBalance (runningBalanceData uid accounts txs)
      = lastCurveBalance (balanceData uid txs) - latestDateNet uid txs
    ∧ lastCurveBalance (balanceData uid txs) = netSumL uid txs := by
  have hperma : List.Perm (txs.insertionSort dateAscRel) txs := List.perm_insertionSort _ _
  have hnet_perm : netSumL uid (txs.insertionSort dateAscRel) = netSumL uid txs :=
    (hperma.map (txSigned uid)).sum_eq
  have hruns := keyRuns_sorted_asc txs hdistinct hcontig
  have hasc_ne : txs.insertionSort dateAscRel ≠ [] := by
    intro h
    have := congrArg List.length h
    rw [List.length_insertionSort] at this
    exact hne (List.eq_nil_of_length_eq_zero this)
  have hfwd : lastCurveBalance (balanceData uid txs) = netSumL uid txs := by
    have hmain := foldl_balanceStep_keyRuns uid hruns [] (by simp)
    rw [balanceData, hmain]
    simp only [List.nil_append]
    have := expectedCurve_lastBalance uid hruns hasc_ne (lastBal [])
    rw [this]
    simp [lastBal, hnet_perm]
  refine ⟨?_, hfwd⟩
  -- the reverse side
  have hdesc_eq := insertionSort_desc_eq_reverse txs hdistinct
  obtain ⟨t0, ts0, hl'⟩ : ∃ t0 ts0, (txs.insertionSort dateAscRel).reverse = t0 :: ts0 := by
    cases hrev : (txs.insertionSort dateAscRel).reverse with
    | nil =>
      exact absurd (by simpa using congrArg List.reverse hrev) hasc_ne
    | cons t0 ts0 => exact ⟨t0, ts0, rfl⟩
  have hpermrev : List.Perm (t0 :: ts0) txs := by
    rw [← hl']
    exact (List.reverse_perm _).trans hperma
  -- the reversed ascending sort is run-structured
  have hstricta : ((txs.insertionSort dateAscRel).reverse).Pairwise
      (fun a b => b.createdAt.time < a.createdAt.time) := by
    rw [List.pairwise_reverse]
    have hsa : (txs.insertionSort dateAscRel).Pairwise dateAscRel :=
      List.sorted_insertionSort dateAscRel txs
    have hnea : (txs.insertionSort dateAscRel).Pairwise
        (fun a b => a.createdAt.time ≠ b.createdAt.time) :=
      (hperma.pairwise_iff (fun h => h.symm)).mpr hdistinct
    exact (hsa.and hnea).imp
      (by intro a b hab; rcases hab with ⟨h1, h2⟩; unfold dateAscRel at h1; omega)
  have hrunsd : KeyRuns (t0 :: ts0) := by
    refine keyRuns_of_sorted (fun x => x ∈ txs)
      (fun a b => b.createdAt.time < a.createdAt.time) ?_ (t0 :: ts0).length _
      (le_refl _) (hl' ▸ hstricta) ?_
    · intro a c u ha hcx hu h1 h2 heq
      have := hcontig u hu a ha c hcx heq.symm h2 h1
      rw [this, heq.symm]
    · intro x hx
      exact hpermrev.subset hx
  cases hrunsd with
  | cons t0 ts0 hfreshd hrestd =>
  -- split the newest run off
  have hsplit : (t0 :: ts0)
      = (t0 :: ts0).takeWhile (fun s => txDate s == txDate t0)
        ++ (t0 :: ts0).dropWhile (fun s => txDate s == txDate t0) :=
    (List.takeWhile_append_dropWhile _ _).symm
  have hgmem : ∀ s ∈ (t0 :: ts0).takeWhile (fun s => txDate s == txDate t0),
      txDate s = txDate t0 := by
    intro s hs
    have hb := List.mem_takeWhile_imp hs
    exact eq_of_beq hb
  have hgne : (t0 :: ts0).takeWhile (fun s => txDate s == txDate t0) ≠ [] := by
    rw [List.takeWhile_cons]
    simp
  obtain ⟨i0, o0, hfirst⟩ := foldl_runningStep_firstRun uid (accountSeed accounts) (txDate t0)
    ((t0 :: ts0).takeWhile (fun s => txDate s == txDate t0)) hgmem hgne
  obtain ⟨acc', hacc'⟩ := foldl_runningStep_head uid (accountSeed accounts)
    ((t0 :: ts0).dropWhile (fun s => txDate s == txDate t0))
    { date := txDate t0,
      balance := accountSeed accounts
        - netSumL uid ((t0 :: ts0).takeWhile (fun s => txDate s == txDate t0)),
      incoming := i0, outgoing := o0 }
    [] hfreshd
  have hfold : (t0 :: ts0).foldl (runningStep uid (accountSeed accounts)) []
      = { date := txDate t0,
          balance := accountSeed accounts
            - netSumL uid ((t0 :: ts0).takeWhile (fun s => txDate s == txDate t0)),
          incoming := i0, outgoing := o0 } :: acc' := by
    conv_lhs => rw [hsplit]
    rw [List.foldl_append, hfirst]
    exact hacc'
  -- identify the latest date bucket key
  have hlatest : latestDate txs = txDate t0 := by
    rw [latestDate, ← List.head?_reverse, hl']
    rfl
  -- the filtered latest-day transactions are exactly the newest run
  have hfilter : (t0 :: ts0).filter (fun t => txDate t == latestDate txs)
      = (t0 :: ts0).takeWhile (fun s => txDate s == txDate t0) := by
    rw [hlatest]
    conv_lhs => rw [hsplit]
    rw [List.filter_append]
    have h1 : ((t0 :: ts0).takeWhile (fun s => txDate s == txDate t0)).filter
        (fun t => txDate t == txDate t0)
        = (t0 :: ts0).takeWhile (fun s => txDate s == txDate t0) := by
      rw [List.filter_eq_self]
      intro a ha
      have hb := List.mem_takeWhile_imp ha
      exact hb
    have h2 : ((t0 :: ts0).dropWhile (fun s => txDate s == txDate t0)).filter
        (fun t => txDate t == txDate t0) = [] := by
      rw [List.filter_eq_nil_iff]
      intro a ha hbeq
      exact hfreshd a ha (eq_of_beq hbeq)
    rw [h1, h2, List.append_nil]
  have hlatestnet : latestDateNet uid txs
      = netSumL uid ((t0 :: ts0).takeWhile (fun s => txDate s == txDate t0)) := by
    rw [latestDateNet, ← hfilter]
    exact ((hpermrev.filter _).symm.map (txSigned uid)).sum_eq
  -- put everything together
  rw [runningBalanceData, hdesc_eq, hl', hfold]
  rw [lastRunningBalance, List.getLast?_reverse]
  rw [hfwd, hseed, hlatestnet]
  rfl

/-- Witness for C1 (amended) at a concrete history: transactions +100 and
-40 on day 1 and +7 on day 2, account balance 67 (= the forward total); the
reversed running curve's latest bucket is 67 - 7 = 60. -/
theorem c1_round_trip_amended_witness :
    ([txW1, txW2, txW3] : List Transaction) ≠ []
    ∧ List.Pairwise (fun a b => a.createdAt.time ≠ b.createdAt.time) [txW1, txW2, txW3]
    ∧ ContiguousDates [txW1, txW2, txW3]
    ∧ accountSeed [accW] = netSumL uidA [txW1, txW2, txW3]
    ∧ lastRunningBalance (runningBalanceData uidA [accW] [txW1, txW2, txW3])
        = lastCurveBalance (balanceData uidA [txW1, txW2, txW3])
          - latestDateNet uidA [txW1, txW2, txW3] := by
  refine ⟨by decide, by decide, by decide, by decide, ?_⟩
  exact (c1_round_trip_amended uidA [accW] [txW1, txW2, txW3]
    (by decide) (by decide) (by decide) (by decide)).1

/-- Counterexample to C1 as stated: a single incoming transaction of 100
with the consistent seed 100.  The forward curve ends at 100 while the
latest (only) bucket of the reversed running-balance curve holds 0 (the
balance before the transaction), so the two ending balances disagree. -/
theorem c1_counterexample :
    accountSeed [accC1] = lastCurveBalance (balanceData uidA [txC1])
    ∧ lastCurveBalance (balanceData uidA [txC1]) = 100
    ∧ lastRunningBalance (runningBalanceData uidA [accC1] [txC1]) = 0
    ∧ (100 : Int) ≠ 0 := by
  refine ⟨by decide, by decide, by decide, by decide⟩

/-! ### Top counterparties -/

/-- A step of the `topPartners` reduce on an accumulator whose head is a
different name leaves the head untouched. -/
theorem topPartnersStep_cons_ne (uid : Option String) (t : Transaction)
    (p : PartnerAcc) (acc : List PartnerAcc) (hne : p.name ≠ partnerNameOf uid t) :
    topPartnersStep uid (p :: acc) t = p :: topPartnersStep uid acc t := by
  have hpred : (p.name == partnerNameOf uid t) = false := by simpa using hne
  rw [topPartnersStep, topPartnersStep]
  simp only [List.findIdx?_cons, hpred, Bool.false_eq_true, if_false,
    List.findIdx?_start_succ, Nat.zero_add]
  cases hfi : acc.findIdx? (fun q => q.name == partnerNameOf uid t) with
  | none => simp
  | some j =>
    simp only [Option.map_some']
    cases hget : acc[j]? with
    | none => simp [List.getElem?_cons_succ, hget]
    | some q => simp [List.getElem?_cons_succ, hget, List.set_cons_succ]

/-- A step of the `topPartners` reduce on an accumulator whose head carries
the transaction's partner name updates the head in place. -/
theorem topPartnersStep_cons_eq (uid : Option String) (t : Transaction)
    (p : PartnerAcc) (acc : List PartnerAcc) (heq : p.name = partnerNameOf uid t) :
    topPartnersStep uid (p :: acc) t
      = (if isIncomingTx uid t then { p with incoming := p.incoming + |t.amount| }
         else { p with outgoing := p.outgoing + |t.amount| }) :: acc := by
  have hpred : (p.name == partnerNameOf uid t) = true := by simpa using heq
  rw [topPartnersStep]
  simp [List.findIdx?_cons, hpred]

/-- A step of the `topPartners` reduce on an accumulator of entries indexed
by distinct names: a known name is updated pointwise, a fresh name is
appended. -/
theorem topPartnersStep_map (uid : Option String) (t : Transaction) :
    ∀ (ks : List String) (f : String → PartnerAcc),
      (∀ k ∈ ks, (f k).name = k) → ks.Nodup →
      topPartnersStep uid (ks.map f) t =
        if partnerNameOf uid t ∈ ks then
          ks.map (fun k => if k = partnerNameOf uid t then
              (if isIncomingTx uid t then { f k with incoming := (f k).incoming + |t.amount| }
               else { f k with outgoing := (f k).outgoing + |t.amount| })
            else f k)
        else (ks.map f)
          ++ [if isIncomingTx uid t
              then { name := partnerNameOf uid t, incoming := |t.amount|, outgoing := 0 }
              else { name := partnerNameOf uid t, incoming := 0, outgoing := |t.amount| }] := by
  intro ks
  induction ks with
  | nil =>
    intro f _ _
    simp [topPartnersStep]
  | cons k ks' ih =>
    intro f hname hnd
    rcases List.nodup_cons.mp hnd with ⟨hk, hnd'⟩
    by_cases hkp : k = partnerNameOf uid t
    · have hstep := topPartnersStep_cons_eq uid t (f k) (ks'.map f)
        (by rw [hname k (by simp), hkp])
      rw [List.map_cons, hstep]
      have hmem : partnerNameOf uid t ∈ k :: ks' := by simp [hkp]
      rw [if_pos hmem, List.map_cons, if_pos hkp]
      congr 1
      apply List.map_congr_left
      intro k' hk'
      have : k' ≠ partnerNameOf uid t := by
        intro habs
        exact hk (by rw [← hkp] at habs; exact habs ▸ hk')
      rw [if_neg this]
    · have hstep := topPartnersStep_cons_ne uid t (f k) (ks'.map f)
        (by rw [hname k (by simp)]; exact hkp)
      rw [List.map_cons, hstep, ih f (fun x hx => hname x (by simp [hx])) hnd']
      by_cases hmem : partnerNameOf uid t ∈ ks'
      · have hmem' : partnerNameOf uid t ∈ k :: ks' := List.mem_cons_of_mem k hmem
        rw [if_pos hmem, if_pos hmem', List.map_cons, if_neg hkp]
      · have hnotmem : partnerNameOf uid t ∉ k :: ks' := by
          intro h
          rcases List.mem_cons.mp h with h' | h'
          · exact hkp h'.symm
          · exact hmem h'
        rw [if_neg hmem, if_neg hnotmem, List.cons_append]

/-- Membership in `firstKeys` is membership in the underlying list. -/
theorem firstKeys_mem_aux :
    ∀ (names : List String) (acc : List String) (n : String),
      n ∈ names.foldl (fun ks k => if k ∈ ks then ks else ks ++ [k]) acc
        ↔ n ∈ acc ∨ n ∈ names := by
  intro names
  induction names with
  | nil => intro acc n; simp
  | cons k names' ih =>
    intro acc n
    rw [List.foldl_cons]
    by_cases hk : k ∈ acc
    · rw [if_pos hk, ih]
      constructor
      · rintro (h | h)
        · exact Or.inl h
        · exact Or.inr (by simp [h])
      · rintro (h | h)
        · exact Or.inl h
        · rcases List.mem_cons.mp h with rfl | h'
          · exact Or.inl hk
          · exact Or.inr h'
    · rw [if_neg hk, ih]
      constructor
      · rintro (h | h)
        · rcases List.mem_append.mp h with h' | h'
          · exact Or.inl h'
          · exact Or.inr (by simp [List.mem_singleton.mp h'])
        · exact Or.inr (by simp [h])
      · rintro (h | h)
        · exact Or.inl (by simp [h])
        · rcases List.mem_cons.mp h with rfl | h'
          · exact Or.inl (by simp)
          · exact Or.inr h'

/-- Membership in `firstKeys` is membership in the underlying list. -/
theorem firstKeys_mem (names : List String) (n : String) :
    n ∈ firstKeys names ↔ n ∈ names := by
  rw [firstKeys, firstKeys_mem_aux]
  simp

/-- The list `firstKeys` never repeats a key. -/
theorem firstKeys_nodup_aux :
    ∀ (names : List String) (acc : List String), acc.Nodup →
      (names.foldl (fun ks k => if k ∈ ks then ks else ks ++ [k]) acc).Nodup := by
  intro names
  induction names with
  | nil => intro acc h; simpa using h
  | cons k names' ih =>
    intro acc hacc
    rw [List.foldl_cons]
    by_cases hk : k ∈ acc
    · rw [if_pos hk]; exact ih acc hacc
    · rw [if_neg hk]
      refine ih _ ?_
      rw [List.nodup_append]
      exact ⟨hacc, List.nodup_singleton k, by simpa using fun h => hk h⟩

/-- The list `firstKeys` never repeats a key. -/
theorem firstKeys_nodup (names : List String) : (firstKeys names).Nodup :=
  firstKeys_nodup_aux names [] List.nodup_nil

/-- Appending one element to the underlying list extends `firstKeys` only
when the element is new. -/
theorem firstKeys_append_singleton (names : List String) (n : String) :
    firstKeys (names ++ [n])
      = if n ∈ firstKeys names then firstKeys names else firstKeys names ++ [n] := by
  rw [firstKeys, List.foldl_append]
  rfl

/-- Incoming per-name volume over an extended list. -/
theorem incSumName_append (uid : Option String) (txs : List Transaction)
    (t : Transaction) (n : String) :
    incSumName uid (txs ++ [t]) n
      = incSumName uid txs n
        + (if (partnerNameOf uid t == n && isIncomingTx uid t) then |t.amount| else 0) := by
  rw [incSumName, incSumName, List.filter_append]
  cases h : (partnerNameOf uid t == n && isIncomingTx uid t) <;>
    simp [List.filter_cons, h]

/-- Outgoing per-name volume over an extended list. -/
theorem outSumName_append (uid : Option String) (txs : List Transaction)
    (t : Transaction) (n : String) :
    outSumName uid (txs ++ [t]) n
      = outSumName uid txs n
        + (if (partnerNameOf uid t == n && !isIncomingTx uid t) then |t.amount| else 0) := by
  rw [outSumName, outSumName, List.filter_append]
  cases h : (partnerNameOf uid t == n && !isIncomingTx uid t) <;>
    simp [List.filter_cons, h]

/-- A name never encountered has zero incoming volume. -/
theorem incSumName_zero (uid : Option String) (txs : List Transaction) (n : String)
    (h : n ∉ txs.map (partnerNameOf uid)) : incSumName uid txs n = 0 := by
  have hfil : txs.filter (fun tx => partnerNameOf uid tx == n && isIncomingTx uid tx) = [] := by
    rw [List.filter_eq_nil_iff]
    intro tx htx hb
    simp only [Bool.and_eq_true, beq_iff_eq] at hb
    exact h (List.mem_map.mpr ⟨tx, htx, hb.1⟩)
  simp [incSumName, hfil]

/-- A name never encountered has zero outgoing volume. -/
theorem outSumName_zero (uid : Option String) (txs : List Transaction) (n : String)
    (h : n ∉ txs.map (partnerNameOf uid)) : outSumName uid txs n = 0 := by
  have hfil : txs.filter (fun tx => partnerNameOf uid tx == n && !isIncomingTx uid tx) = [] := by
    rw [List.filter_eq_nil_iff]
    intro tx htx hb
    simp only [Bool.and_eq_true, beq_iff_eq] at hb
    exact h (List.mem_map.mpr ⟨tx, htx, hb.1⟩)
  simp [outSumName, hfil]

/-- The `topPartners` accumulator is exactly the first-encounter key list
mapped to its grouped totals. -/
theorem topPartners_canonical (uid : Option String) (txs : List Transaction) :
    topPartners uid txs
      = (firstKeys (txs.map (partnerNameOf uid))).map (partnerEntry uid txs) := by
  induction txs using List.reverseRecOn with
  | nil => simp [topPartners, firstKeys, partnerEntry]
  | append_singleton l t ihl =>
    rw [topPartners, List.foldl_append, List.foldl_cons, List.foldl_nil, ← topPartners, ihl]
    rw [topPartnersStep_map uid t _ (partnerEntry uid l)
      (fun k _ => rfl) (firstKeys_nodup _)]
    simp only [List.map_append, List.map_cons, List.map_nil]
    rw [firstKeys_append_singleton]
    by_cases hmem : partnerNameOf uid t ∈ firstKeys (l.map (partnerNameOf uid))
    · have hmem' : partnerNameOf uid t ∈ l.map (partnerNameOf uid) :=
        (firstKeys_mem _ _).mp hmem
      rw [if_pos hmem, if_pos hmem]
      apply List.map_congr_left
      intro k hk
      by_cases hkp : k = partnerNameOf uid t
      · subst hkp
        by_cases hinc : isIncomingTx uid t <;>
          simp [partnerEntry, incSumName_append, outSumName_append, hinc]
      · rw [if_neg hkp]
        have hne1 : (partnerNameOf uid t == k) = false := by
          simp
          exact fun habs => hkp habs.symm
        simp [partnerEntry, incSumName_append, outSumName_append, hne1]
    · have hmem' : partnerNameOf uid t ∉ l.map (partnerNameOf uid) :=
        fun h => hmem ((firstKeys_mem _ _).mpr h)
      rw [if_neg hmem, if_neg hmem, List.map_append]
      congr 1
      · apply List.map_congr_left
        intro k hk
        have hkp : (partnerNameOf uid t == k) = false := by
          simp
          intro habs
          exact hmem (habs ▸ hk)
        simp [partnerEntry, incSumName_append, outSumName_append, hkp]
      · have hzi := incSumName_zero uid l _ hmem'
        have hzo := outSumName_zero uid l _ hmem'
        by_cases hinc : isIncomingTx uid t <;>
          simp [partnerEntry, incSumName_append, outSumName_append, hinc, hzi, hzo]

/-- Two distinct members of a list occur in one of the two orders. -/
theorem sublist_pair_of_mem_mem {α : Type _} :
    ∀ (l : List α) (p q : α), p ∈ l → q ∈ l → p ≠ q →
      List.Sublist [p, q] l ∨ List.Sublist [q, p] l := by
  intro l
  induction l with
  | nil => intro p q hp _ _; exact absurd hp (List.not_mem_nil p)
  | cons a t ih =>
    intro p q hp hq hne
    rcases List.mem_cons.mp hp with rfl | hp'
    · rcases List.mem_cons.mp hq with rfl | hq'
      · exact absurd rfl hne
      · exact Or.inl ((List.singleton_sublist.mpr hq').cons₂ p)
    · rcases List.mem_cons.mp hq with rfl | hq'
      · exact Or.inr ((List.singleton_sublist.mpr hp').cons₂ q)
      · rcases ih p q hp' hq' hne with h | h
        · exact Or.inl (h.cons a)
        · exact Or.inr (h.cons a)

/-- In a duplicate-free list two distinct elements cannot occur in both
orders. -/
theorem not_sublist_pair_both {α : Type _} :
    ∀ (l : List α), l.Nodup → ∀ (p q : α), List.Sublist [p, q] l →
      List.Sublist [q, p] l → p ≠ q → False := by
  intro l
  induction l with
  | nil => intro _ p q h1 _ _; cases h1
  | cons a t ih =>
    intro hnd p q h1 h2 hne
    rcases List.nodup_cons.mp hnd with ⟨ha, hnd'⟩
    cases h1 with
    | cons _ h1' =>
      cases h2 with
      | cons _ h2' => exact ih hnd' p q h1' h2' hne
      | cons₂ _ h2' =>
        exact ha (h1'.subset (by simp))
    | cons₂ _ h1' =>
      cases h2 with
      | cons _ h2' =>
        exact ha (h2'.subset (by simp))
      | cons₂ _ h2' => exact hne rfl

/-- A duplicate-free list is strictly ordered by its own indices. -/
theorem nodup_pairwise_indexOf :
    ∀ ks : List String, ks.Nodup → ks.Pairwise (fun a b => ks.indexOf a < ks.indexOf b) := by
  intro ks
  induction ks with
  | nil => intro _; exact List.Pairwise.nil
  | cons k ks' ih =>
    intro hnd
    rcases List.nodup_cons.mp hnd with ⟨hk, hnd'⟩
    rw [List.pairwise_cons]
    constructor
    · intro b hb
      have hbk : k ≠ b := fun h => hk (h ▸ hb)
      rw [List.indexOf_cons_self, List.indexOf_cons_ne _ hbk]
      exact Nat.succ_pos _
    · have hp' := ih hnd'
      rw [List.pairwise_iff_forall_sublist]
      intro a b hsub
      have ha : a ∈ ks' := hsub.subset (List.mem_cons_self a [b])
      have hb : b ∈ ks' := hsub.subset (List.mem_cons_of_mem a (List.mem_singleton_self b))
      have hR := List.pairwise_iff_forall_sublist.mp hp' hsub
      have hak : k ≠ a := fun h => hk (h ▸ ha)
      have hbk : k ≠ b := fun h => hk (h ▸ hb)
      rw [List.indexOf_cons_ne _ hak, List.indexOf_cons_ne _ hbk]
      omega

/-- C4: the top-counterparties output has length `min 5 (number of distinct
counterparty names)`; each entry's totals are the grouped incoming/outgoing
sums for its name with `total = incoming + outgoing`; the list is sorted
descending by total; and ties keep first-encounter order of the names. -/
theorem c4_top_partners_spec (uid : Option String) (txs : List Transaction) :
    (topPartnersData uid txs).length
      = min 5 ((txs.map (partnerNameOf uid)).dedup).length
    ∧ (∀ p ∈ topPartnersData uid txs,
        p.total = p.incoming + p.outgoing
        ∧ p.incoming = incSumName uid txs p.name
        ∧ p.outgoing = outSumName uid txs p.name)
    ∧ (topPartnersData uid txs).Pairwise (fun a b => b.total ≤ a.total)
    ∧ (topPartnersData uid txs).Pairwise (fun a b => a.total = b.total →
        (firstKeys (txs.map (partnerNameOf uid))).indexOf a.name
          < (firstKeys (txs.map (partnerNameOf uid))).indexOf b.name) := by
  haveI : IsTotal PartnerData partnerTotalRel := ⟨by intro a b; unfold partnerTotalRel; omega⟩
  haveI : IsTrans PartnerData partnerTotalRel :=
    ⟨by intro a b c; unfold partnerTotalRel; omega⟩
  have henriched : (topPartners uid txs).map
      (fun p => ({ name := p.name, incoming := p.incoming, outgoing := p.outgoing,
                   total := p.incoming + p.outgoing } : PartnerData))
      = (firstKeys (txs.map (partnerNameOf uid))).map
          (fun k => ({ name := k, incoming := incSumName uid txs k,
                       outgoing := outSumName uid txs k,
                       total := incSumName uid txs k + outSumName uid txs k } : PartnerData)) := by
    rw [topPartners_canonical uid txs, List.map_map]
    rfl
  have hdata : topPartnersData uid txs
      = (((firstKeys (txs.map (partnerNameOf uid))).map
          (fun k => ({ name := k, incoming := incSumName uid txs k,
                       outgoing := outSumName uid txs k,
                       total := incSumName uid txs k + outSumName uid txs k }
            : PartnerData))).insertionSort partnerTotalRel).take 5 := by
    rw [topPartnersData, henriched]
  have hksnd : (firstKeys (txs.map (partnerNameOf uid))).Nodup := firstKeys_nodup _
  have hQ : (((firstKeys (txs.map (partnerNameOf uid))).map
      (fun k => ({ name := k, incoming := incSumName uid txs k,
                   outgoing := outSumName uid txs k,
                   total := incSumName uid txs k + outSumName uid txs k }
        : PartnerData)))).Pairwise
      (fun p q => (firstKeys (txs.map (partnerNameOf uid))).indexOf p.name
        < (firstKeys (txs.map (partnerNameOf uid))).indexOf q.name) := by
    rw [List.pairwise_map]
    exact nodup_pairwise_indexOf _ hksnd
  have hEnodup : (((firstKeys (txs.map (partnerNameOf uid))).map
      (fun k => ({ name := k, incoming := incSumName uid txs k,
                   outgoing := outSumName uid txs k,
                   total := incSumName uid txs k + outSumName uid txs k }
        : PartnerData)))).Nodup := by
    refine hQ.imp ?_
    intro a b hab habs
    rw [habs] at hab
    omega
  have hperm := List.perm_insertionSort partnerTotalRel
    (((firstKeys (txs.map (partnerNameOf uid))).map
      (fun k => ({ name := k, incoming := incSumName uid txs k,
                   outgoing := outSumName uid txs k,
                   total := incSumName uid txs k + outSumName uid txs k }
        : PartnerData))))
  have hsortnd := (hperm.nodup_iff).mpr hEnodup
  have hsortedP := List.sorted_insertionSort partnerTotalRel
    (((firstKeys (txs.map (partnerNameOf uid))).map
      (fun k => ({ name := k, incoming := incSumName uid txs k,
                   outgoing := outSumName uid txs k,
                   total := incSumName uid txs k + outSumName uid txs k }
        : PartnerData))))
  refine ⟨?_, ?_, ?_, ?_⟩
  · rw [hdata, List.length_take, List.length_insertionSort, List.length_map]
    congr 1
    exact ((List.perm_ext_iff_of_nodup hksnd (List.nodup_dedup _)).mpr
      (fun a => by rw [firstKeys_mem, List.mem_dedup])).length_eq
  · intro p hp
    rw [hdata] at hp
    have hp1 : p ∈ (((firstKeys (txs.map (partnerNameOf uid))).map
        (fun k => ({ name := k, incoming := incSumName uid txs k,
                     outgoing := outSumName uid txs k,
                     total := incSumName uid txs k + outSumName uid txs k }
          : PartnerData)))).insertionSort partnerTotalRel :=
      (List.take_sublist 5 _).subset hp
    have hp2 := hperm.subset hp1
    rcases List.mem_map.mp hp2 with ⟨k, _, rfl⟩
    exact ⟨rfl, rfl, rfl⟩
  · rw [hdata]
    refine List.Pairwise.sublist (List.take_sublist 5 _) ?_
    refine hsortedP.imp ?_
    intro a b hab
    unfold partnerTotalRel at hab
    omega
  · rw [hdata]
    refine List.Pairwise.sublist (List.take_sublist 5 _) ?_
    rw [List.pairwise_iff_forall_sublist]
    intro p q hsub htie
    have hne : p ≠ q :=
      List.pairwise_iff_forall_sublist.mp (by exact hsortnd) hsub
    have hp2 := hperm.subset (hsub.subset (List.mem_cons_self p [q]))
    have hq2 := hperm.subset (hsub.subset (List.mem_cons_of_mem p (List.mem_singleton_self q)))
    rcases sublist_pair_of_mem_mem _ p q hp2 hq2 hne with hcase | hcase
    · exact List.pairwise_iff_forall_sublist.mp hQ hcase
    · exfalso
      have hrel : partnerTotalRel q p := by unfold partnerTotalRel; omega
      have hboth := List.pair_sublist_insertionSort hrel hcase
      exact not_sublist_pair_both _ hsortnd q p hboth hsub (Ne.symm hne)

/-- Witness for C4 at a concrete history: one counterparty named Bob with
incoming 107 and outgoing 40 produces the single entry
(Bob, 107, 40, 147). -/
theorem c4_top_partners_spec_witness :
    (topPartnersData uidA [txW1, txW2, txW3]).length = 1
    ∧ ({ name := "Bob", incoming := 107, outgoing := 40, total := 147 } : PartnerData)
        ∈ topPartnersData uidA [txW1, txW2, txW3]
    ∧ (147 : Int)
        = incSumName uidA [txW1, txW2, txW3] ("Bob")
          + outSumName uidA [txW1, txW2, txW3] ("Bob") := by
  refine ⟨by decide, by decide, ?_⟩
  have h := (c4_top_partners_spec uidA [txW1, txW2, txW3]).2.1
    { name := "Bob", incoming := 107, outgoing := 40, total := 147 } (by decide)
  rcases h with ⟨h1, h2, h3⟩
  have h2' : (107 : Int) = incSumName uidA [txW1, txW2, txW3] ("Bob") := h2
  have h3' : (40 : Int) = outSumName uidA [txW1, txW2, txW3] ("Bob") := h3
  omega
